import Mathlib

/-!
Shallow embedding of the category-tree core of `src/python_test_task/main.py`:
the builder `build_category_tree` (lines 105-125) and the classifier
`get_offer_n_level_category` (lines 186-210).

Python dictionaries are modelled as association lists (`List (String × _)`,
insertion-ordered, looked up by first match); Python's in-place mutation of the
raw-category dictionary during `build_category_tree` is modelled by threading
the dictionary state through the loops, and the unbounded `while` walk is
modelled with an explicit iteration bound (`fuel`): a result of `none` means
the walk was still running when the bound ran out, at every bound - i.e. the
loop diverges.  Python strings are Lean `String`s; `str.split` / `str.join`
and list `pop(0)` / negative indexing are modelled character-faithfully below.
-/

namespace PythonTestTask

/-- A raw category record, as the values of the dictionary produced by
`get_raw_categories` (main.py lines 95-99): `parent_id`, `name`, and the
mutable `path` tuple seeded with `(name,)`. -/
structure RawCat where
  parent_id : String
  name : String
  path : List String
deriving DecidableEq

/-- The frozen `Category` dataclass (main.py lines 21-31). -/
structure Category where
  id : String
  parent_id : String
  name : String
  path : String
deriving DecidableEq

/-- Python exceptions the classifier can raise: `AttributeError` from
`None.path` when the dictionary lookup misses (line 201-202), and
`IndexError` from `list.pop(0)` on an empty list or an out-of-range
`path[level - 1]` (lines 205-210). -/
inductive PyError where
  | attributeError
  | indexError
deriving DecidableEq

/-- Modelled from the spec (section 7): the `UnknownCategory` failure
condition - classification requested for an id absent from the tree.  In the
code it is realized as the `AttributeError` raised when `category_tree.get`
returns `None` and `.path` is accessed (main.py lines 201-202). -/
def UnknownCategory : PyError := PyError.attributeError

/-- Modelled from the spec (section 7): the `IndexOutOfRange` failure
condition - a positive level deeper than the category's actual depth.  In the
code it is realized as the `IndexError` raised by `path[level - 1]`
(main.py line 210). -/
def IndexOutOfRange : PyError := PyError.indexError

/-- Python `dict.get`: first (unique) binding of the key, if any. -/
def pyGet (k : String) : List (String × α) → Option α
  | [] => none
  | (k', v) :: rest => if k = k' then some v else pyGet k rest

/-- Python `d[k] = v`: replace the binding in place if the key is present,
otherwise append it (insertion order). -/
def dictInsert (l : List (String × α)) (k : String) (v : α) : List (String × α) :=
  if (pyGet k l).isSome then
    l.map (fun kv => if kv.1 = k then (kv.1, v) else kv)
  else l ++ [(k, v)]

/-- Python `lst[i]` with negative-index semantics: a negative `i` counts from
the end; out of range on either side is an `IndexError` (here `none`). -/
def pyGetItem (l : List α) (i : Int) : Option α :=
  let j := if i < 0 then i + l.length else i
  if 0 ≤ j ∧ j < (l.length : Int) then l.get? j.toNat else none

/-- Python `lst.pop(0)`: remove and return the first element; `IndexError`
on an empty list. -/
def pyPopFront : List α → Except PyError (α × List α)
  | [] => Except.error PyError.indexError
  | x :: xs => Except.ok (x, xs)

/-- The separator for category-path parts (main.py line 18). -/
def CATEGORY_PATH_SEP : Char := '/'

/-- Character-level model of Python `s.split("/")`: no collapsing of empty
parts, and the empty string splits to `[[]]`. -/
def splitChars : List Char → List (List Char)
  | [] => [[]]
  | c :: cs =>
    if c = CATEGORY_PATH_SEP then [] :: splitChars cs
    else
      match splitChars cs with
      | [] => [[c]]
      | p :: ps => (c :: p) :: ps

/-- Character-level model of Python `"/".join(parts)`. -/
def joinChars : List (List Char) → List Char
  | [] => []
  | [p] => p
  | p :: ps => p ++ CATEGORY_PATH_SEP :: joinChars ps

/-- Python `s.split(CATEGORY_PATH_SEP)` on strings. -/
def pySplit (s : String) : List String :=
  (splitChars s.data).map (fun l => ⟨l⟩)

/-- Python `CATEGORY_PATH_SEP.join(parts)` on strings. -/
def pyJoinSlash (l : List String) : String :=
  ⟨joinChars (l.map String.data)⟩

/-- The statement `x["path"] = (parent["name"],) + x["path"]` (main.py
line 120): prepend a name to the `path` field of the entry with key `id`,
in place. -/
def prependPathAt (cats : List (String × RawCat)) (id : String) (n : String) :
    List (String × RawCat) :=
  cats.map (fun kv => if kv.1 = id then (kv.1, { kv.2 with path := n :: kv.2.path }) else kv)

/-- The `while parent := categories.get(y["parent_id"])` walk of
`build_category_tree` (main.py lines 119-121), for the entry with key `id`,
threading the mutated dictionary.  `ypid` is the current `y["parent_id"]`;
`fuel` bounds the number of iterations, `none` meaning the loop was still
running when the bound was reached. -/
def walkLoop (id : String) : Nat → List (String × RawCat) → String →
    Option (List (String × RawCat))
  | 0, cats, ypid =>
    match pyGet ypid cats with
    | none => some cats
    | some _ => none
  | fuel + 1, cats, ypid =>
    match pyGet ypid cats with
    | none => some cats
    | some parent => walkLoop id fuel (prependPathAt cats id parent.name) parent.parent_id

/-- The `for id, x in categories.items()` loop of `build_category_tree`
(main.py lines 117-124): walk each entry's parent chain, then store
`Category(id, x["parent_id"], x["name"], CATEGORY_PATH_SEP.join(x["path"]))`
in `result`.  The dictionary state is threaded because the walk mutates it. -/
def buildLoop (fuel : Nat) : List String → List (String × RawCat) →
    List (String × Category) →
    Option (List (String × RawCat) × List (String × Category))
  | [], cats, res => some (cats, res)
  | id :: rest, cats, res =>
    match pyGet id cats with
    | none => none
    | some x =>
      match walkLoop id fuel cats x.parent_id with
      | none => none
      | some cats' =>
        match pyGet id cats' with
        | none => none
        | some x' =>
          buildLoop fuel rest cats'
            (dictInsert res id ⟨id, x'.parent_id, x'.name, pyJoinSlash x'.path⟩)

/-- `build_category_tree` (main.py lines 105-125), returning both the final
state of the (mutated) input dictionary and the `result` dictionary.  The
iteration bound `categories.length` is exact: an acyclic parent chain inside a
map of `n` entries exits within `n` lookups, so `none` occurs precisely when a
walk diverges. -/
def build_category_tree_full (categories : List (String × RawCat)) :
    Option (List (String × RawCat) × List (String × Category)) :=
  buildLoop categories.length (categories.map Prod.fst) categories []

/-- The return value of `build_category_tree` (main.py line 125). -/
def build_category_tree (categories : List (String × RawCat)) :
    Option (List (String × Category)) :=
  (build_category_tree_full categories).map Prod.snd

/-- `get_offer_n_level_category` (main.py lines 186-210): look the id up in
the tree (a miss makes `offer_category.path` an `AttributeError`), split the
path on `/`; for `level = -1` pop the first three segments (an `IndexError`
as soon as the list is empty) and re-join the rest; otherwise index
`path[level - 1]` with Python list-index semantics. -/
def get_offer_n_level_category (offer_category_id : String) (level : Int)
    (category_tree : List (String × Category)) : Except PyError String :=
  match pyGet offer_category_id category_tree with
  | none => Except.error PyError.attributeError
  | some offer_category =>
    let path := pySplit offer_category.path
    if level = -1 then
      match pyPopFront path with
      | Except.error e => Except.error e
      | Except.ok (_, path1) =>
        match pyPopFront path1 with
        | Except.error e => Except.error e
        | Except.ok (_, path2) =>
          match pyPopFront path2 with
          | Except.error e => Except.error e
          | Except.ok (_, path3) => Except.ok (pyJoinSlash path3)
    else
      match pyGetItem path (level - 1) with
      | some s => Except.ok s
      | none => Except.error PyError.indexError

/-- Modelled from the spec (section 3, invariant): the names along the
ancestor chain of a parent pointer `pid`, root first, following `parent_id`
through the input map; `none` if the chain does not exit the map within
`fuel` lookups.  This is the specification-side description the builder is
compared against. -/
def chainNames : Nat → List (String × RawCat) → String → Option (List String)
  | 0, cats, pid =>
    (match pyGet pid cats with
     | none => some []
     | some _ => none)
  | fuel + 1, cats, pid =>
    match pyGet pid cats with
    | none => some []
    | some parent => (chainNames fuel cats parent.parent_id).map (fun ns => ns ++ [parent.name])

/-- Proof-side generalization of `prependPathAt`: prepend a whole list of
names to the `path` of the entry with key `id`. -/
def prependList (cats : List (String × RawCat)) (id : String) (ns : List String) :
    List (String × RawCat) :=
  cats.map (fun kv => if kv.1 = id then (kv.1, { kv.2 with path := ns ++ kv.2.path }) else kv)

/-- Two dictionary states agree on keys, `parent_id`s and `name`s (they may
differ in the mutable `path` fields). -/
def pnEq (cats cats' : List (String × RawCat)) : Prop :=
  ∀ k, (pyGet k cats).map RawCat.parent_id = (pyGet k cats').map RawCat.parent_id ∧
       (pyGet k cats).map RawCat.name = (pyGet k cats').map RawCat.name

/-- The three-deep concrete input of spec section 8 (`Kids/Girls/Dolls`). -/
def exK : List (String × RawCat) :=
  [("1", ⟨"", "Kids", ["Kids"]⟩), ("2", ⟨"1", "Girls", ["Girls"]⟩),
   ("3", ⟨"2", "Dolls", ["Dolls"]⟩)]

/-- A reordered copy of `exK` (same key-value associations, child first). -/
def exKperm : List (String × RawCat) :=
  [("3", ⟨"2", "Dolls", ["Dolls"]⟩), ("1", ⟨"", "Kids", ["Kids"]⟩),
   ("2", ⟨"1", "Girls", ["Girls"]⟩)]

/-- A two-entry chain used to exhibit the builder's input mutation. -/
def exA : List (String × RawCat) :=
  [("1", ⟨"", "Kids", ["Kids"]⟩), ("2", ⟨"1", "Girls", ["Girls"]⟩)]

/-- The dictionary state `exA` is left in after one `build_category_tree`
call: entry `"2"` has had its parent's name prepended to `path`. -/
def exAafter : List (String × RawCat) :=
  [("1", ⟨"", "Kids", ["Kids"]⟩), ("2", ⟨"1", "Girls", ["Kids", "Girls"]⟩)]

/-- An acyclic input in which the empty string is itself a category id, so an
entry with `parent_id = ""` does have a resolvable parent. -/
def exE : List (String × RawCat) :=
  [("", ⟨"x", "Root", ["Root"]⟩), ("a", ⟨"", "Leaf", ["Leaf"]⟩)]

/-- The cyclic input of spec section 8: category `"A"` has parent `"B"` and
`"B"` has parent `"A"`. -/
def cyc : List (String × RawCat) :=
  [("A", ⟨"B", "a", ["a"]⟩), ("B", ⟨"A", "b", ["b"]⟩)]

/-- A resolved tree with a one-segment path. -/
def tree1 : List (String × Category) := [("1", ⟨"1", "", "Kids", "Kids"⟩)]

/-- A resolved tree with a two-segment path. -/
def tree2 : List (String × Category) := [("2", ⟨"2", "1", "Girls", "Kids/Girls"⟩)]

/-- A resolved tree with a three-segment path. -/
def tree3 : List (String × Category) := [("3", ⟨"3", "2", "Dolls", "Kids/Girls/Dolls"⟩)]

/-- The five-deep chain of spec section 8, at its leaf. -/
def tree5 : List (String × Category) :=
  [("5", ⟨"5", "4", "Shoes", "Kids/Girls/Dolls/Accessories/Shoes"⟩)]

/-! ### Association-list lemmas -/

theorem pyGet_eq_none {α : Type} {k : String} {l : List (String × α)} :
    pyGet k l = none ↔ k ∉ l.map Prod.fst := by
  induction l with
  | nil => simp [pyGet]
  | cons kv rest ih =>
    obtain ⟨k', v⟩ := kv
    by_cases h : k = k' <;> simp [pyGet, h, ih]

theorem pyGet_mem {α : Type} {k : String} {l : List (String × α)} {v : α}
    (h : pyGet k l = some v) : (k, v) ∈ l := by
  induction l with
  | nil => simp [pyGet] at h
  | cons kv rest ih =>
    obtain ⟨k', v'⟩ := kv
    by_cases hk : k = k'
    · subst hk
      simp [pyGet] at h
      simp [h]
    · simp [pyGet, hk] at h
      exact List.mem_cons_of_mem _ (ih h)

theorem exists_pyGet_of_mem_keys {α : Type} {k : String} {l : List (String × α)}
    (h : k ∈ l.map Prod.fst) : ∃ v, pyGet k l = some v := by
  cases hg : pyGet k l with
  | none => exact absurd h (pyGet_eq_none.mp hg)
  | some v => exact ⟨v, rfl⟩

theorem pyGet_append_of_none {α : Type} {k : String} {l₁ l₂ : List (String × α)}
    (h : pyGet k l₁ = none) : pyGet k (l₁ ++ l₂) = pyGet k l₂ := by
  induction l₁ with
  | nil => rfl
  | cons kv rest ih =>
    obtain ⟨k', v'⟩ := kv
    by_cases hk : k = k' <;> simp [pyGet, hk] at h ⊢
    exact ih h

theorem pyGet_append_of_some {α : Type} {k : String} {l₁ l₂ : List (String × α)} {v : α}
    (h : pyGet k l₁ = some v) : pyGet k (l₁ ++ l₂) = some v := by
  induction l₁ with
  | nil => simp [pyGet] at h
  | cons kv rest ih =>
    obtain ⟨k', v'⟩ := kv
    by_cases hk : k = k' <;> simp [pyGet, hk] at h ⊢ <;> simp_all

theorem pyGet_of_nodup_mem {α : Type} {k : String} {l : List (String × α)} {v : α}
    (hnd : (l.map Prod.fst).Nodup) (h : (k, v) ∈ l) : pyGet k l = some v := by
  induction l with
  | nil => simp at h
  | cons kv rest ih =>
    obtain ⟨k', v'⟩ := kv
    simp only [List.map_cons, List.nodup_cons] at hnd
    rcases List.mem_cons.mp h with heq | hmem
    · obtain ⟨rfl, rfl⟩ := Prod.mk.injEq .. ▸ heq
      simp [pyGet]
    · by_cases hk : k = k'
      · subst hk
        exact absurd (List.mem_map_of_mem Prod.fst hmem) hnd.1
      · simpa [pyGet, hk] using ih hnd.2 hmem

theorem pyGet_perm {α : Type} {l₁ l₂ : List (String × α)}
    (hperm : l₁.Perm l₂) (hnd : (l₁.map Prod.fst).Nodup) (k : String) :
    pyGet k l₁ = pyGet k l₂ := by
  have hnd₂ : (l₂.map Prod.fst).Nodup := ((hperm.map Prod.fst).nodup_iff).mp hnd
  cases hg : pyGet k l₁ with
  | none =>
    refine (pyGet_eq_none.mpr ?_).symm
    intro hmem
    exact pyGet_eq_none.mp hg (((hperm.map Prod.fst).mem_iff).mpr hmem)
  | some v =>
    exact (pyGet_of_nodup_mem hnd₂ (hperm.mem_iff.mp (pyGet_mem hg))).symm

/-! ### `prependList` and `pnEq` lemmas -/

theorem pyGet_prependList {cats : List (String × RawCat)} {id : String}
    {ns : List String} (k : String) :
    pyGet k (prependList cats id ns) =
      if k = id then (pyGet k cats).map (fun r => { r with path := ns ++ r.path })
      else pyGet k cats := by
  induction cats with
  | nil => by_cases h : k = id <;> simp [prependList, pyGet, h]
  | cons kv rest ih =>
    obtain ⟨k', v'⟩ := kv
    by_cases hk' : k' = id
    · subst hk'
      have h1 : prependList ((k', v') :: rest) k' ns
          = (k', { v' with path := ns ++ v'.path }) :: prependList rest k' ns := by
        simp [prependList]
      rw [h1]
      by_cases hk : k = k'
      · subst hk
        simp [pyGet]
      · simp [pyGet, hk, ih]
    · have h1 : prependList ((k', v') :: rest) id ns = (k', v') :: prependList rest id ns := by
        simp [prependList, hk']
      rw [h1]
      by_cases hk : k = k'
      · subst hk
        simp [pyGet, hk']
      · simp [pyGet, hk, ih]

theorem keys_prependList {cats : List (String × RawCat)} {id : String}
    {ns : List String} :
    (prependList cats id ns).map Prod.fst = cats.map Prod.fst := by
  induction cats with
  | nil => rfl
  | cons kv rest ih =>
    by_cases h : kv.1 = id <;> simp [prependList, h] at ih ⊢ <;> exact ih

theorem prependList_nil {cats : List (String × RawCat)} {id : String} :
    prependList cats id [] = cats := by
  induction cats with
  | nil => rfl
  | cons kv rest ih =>
    obtain ⟨k', v'⟩ := kv
    by_cases h : k' = id <;> simp [prependList, h] at ih ⊢

theorem prependList_prependList {cats : List (String × RawCat)} {id : String}
    {ns₁ ns₂ : List String} :
    prependList (prependList cats id ns₁) id ns₂ = prependList cats id (ns₂ ++ ns₁) := by
  induction cats with
  | nil => rfl
  | cons kv rest ih =>
    obtain ⟨k', v'⟩ := kv
    by_cases h : k' = id <;> simp [prependList, h] at ih ⊢ <;> exact ih

theorem prependPathAt_eq {cats : List (String × RawCat)} {id : String} {n : String} :
    prependPathAt cats id n = prependList cats id [n] := by
  induction cats with
  | nil => rfl
  | cons kv rest ih =>
    obtain ⟨k', v'⟩ := kv
    by_cases h : k' = id <;> simp [prependPathAt, prependList, h] at ih ⊢

theorem pnEq_refl (cats : List (String × RawCat)) : pnEq cats cats :=
  fun _ => ⟨rfl, rfl⟩

theorem pnEq_trans {c₁ c₂ c₃ : List (String × RawCat)}
    (h₁ : pnEq c₁ c₂) (h₂ : pnEq c₂ c₃) : pnEq c₁ c₃ :=
  fun k => ⟨(h₁ k).1.trans (h₂ k).1, (h₁ k).2.trans (h₂ k).2⟩

theorem pnEq_of_get_eq {c₁ c₂ : List (String × RawCat)}
    (h : ∀ k, pyGet k c₁ = pyGet k c₂) : pnEq c₁ c₂ :=
  fun k => ⟨by rw [h k], by rw [h k]⟩

theorem pnEq_prependList {cats : List (String × RawCat)} {id : String}
    {ns : List String} : pnEq (prependList cats id ns) cats := by
  intro k
  rw [pyGet_prependList k]
  by_cases h : k = id
  · subst h
    simp only [if_pos rfl]
    cases pyGet k cats <;> simp [Function.comp]
  · simp [h]

theorem chainNames_congr {c₁ c₂ : List (String × RawCat)} (h : pnEq c₁ c₂) :
    ∀ (fuel : Nat) (pid : String), chainNames fuel c₁ pid = chainNames fuel c₂ pid := by
  intro fuel
  induction fuel with
  | zero =>
    intro pid
    have hp := (h pid).1
    cases h₁ : pyGet pid c₁ <;> cases h₂ : pyGet pid c₂ <;>
      simp [h₁, h₂] at hp ⊢ <;> simp [chainNames, h₁, h₂]
  | succ f ih =>
    intro pid
    have hp := (h pid).1
    have hn := (h pid).2
    cases h₁ : pyGet pid c₁ with
    | none =>
      cases h₂ : pyGet pid c₂ <;> simp [h₁, h₂] at hp <;> simp [chainNames, h₁, h₂]
    | some a =>
      cases h₂ : pyGet pid c₂ with
      | none => simp [h₁, h₂] at hp
      | some b =>
        simp only [h₁, h₂, Option.map_some'] at hp hn
        have hpid : a.parent_id = b.parent_id := Option.some.inj hp
        have hname : a.name = b.name := Option.some.inj hn
        simp [chainNames, h₁, h₂, hpid, hname, ih]

/-! ### The while-loop walk equals the specification chain -/

theorem walkLoop_eq (id : String) :
    ∀ (fuel : Nat) (cats : List (String × RawCat)) (ypid : String),
      walkLoop id fuel cats ypid =
        (chainNames fuel cats ypid).map (fun ns => prependList cats id ns) := by
  intro fuel
  induction fuel with
  | zero =>
    intro cats ypid
    cases h : pyGet ypid cats <;> simp [walkLoop, chainNames, h, prependList_nil]
  | succ f ih =>
    intro cats ypid
    cases h : pyGet ypid cats with
    | none => simp [walkLoop, chainNames, h, prependList_nil]
    | some parent =>
      have hinv : pnEq (prependPathAt cats id parent.name) cats := by
        rw [prependPathAt_eq]
        exact pnEq_prependList
      simp only [walkLoop, chainNames, h, ih, chainNames_congr hinv, Option.map_map]
      cases chainNames f cats parent.parent_id with
      | none => rfl
      | some ns =>
        simp [Function.comp, prependPathAt_eq, prependList_prependList]

/-! ### Split/join lemmas -/

theorem splitChars_ne_nil : ∀ l : List Char, splitChars l ≠ [] := by
  intro l
  cases l with
  | nil => simp [splitChars]
  | cons c cs =>
    by_cases hc : c = CATEGORY_PATH_SEP
    · simp [splitChars, hc]
    · cases h : splitChars cs <;> simp [splitChars, hc, h]

theorem joinChars_splitChars : ∀ l : List Char, joinChars (splitChars l) = l := by
  intro l
  induction l with
  | nil => rfl
  | cons c cs ih =>
    by_cases hc : c = CATEGORY_PATH_SEP
    · subst hc
      have hs : splitChars (CATEGORY_PATH_SEP :: cs) = [] :: splitChars cs := by
        simp [splitChars]
      rw [hs]
      cases h : splitChars cs with
      | nil => exact absurd h (splitChars_ne_nil cs)
      | cons p ps =>
        rw [h] at ih
        simpa [joinChars] using ih
    · cases h : splitChars cs with
      | nil => exact absurd h (splitChars_ne_nil cs)
      | cons p ps =>
        have hs : splitChars (c :: cs) = (c :: p) :: ps := by
          simp [splitChars, hc, h]
        rw [hs]
        rw [h] at ih
        cases ps with
        | nil =>
          simp only [joinChars] at ih ⊢
          rw [ih]
        | cons q qs =>
          simp only [joinChars] at ih ⊢
          rw [List.cons_append, ih]

theorem strData_append (s t : String) : (s ++ t).data = s.data ++ t.data := by
  cases s
  cases t
  rfl

theorem pyJoinSlash_pySplit (s : String) : pyJoinSlash (pySplit s) = s := by
  simp only [pySplit, pyJoinSlash, List.map_map]
  have h1 : (String.data ∘ fun l => (⟨l⟩ : String)) = id := rfl
  rw [h1, List.map_id, joinChars_splitChars]

theorem pySplit_ne_nil (s : String) : pySplit s ≠ [] := by
  simp only [pySplit, ne_eq, List.map_eq_nil_iff]
  exact splitChars_ne_nil s.data

theorem pyJoinSlash_singleton (s : String) : pyJoinSlash [s] = s := by
  simp only [pyJoinSlash, List.map_cons, List.map_nil, joinChars]

theorem joinChars_concat : ∀ (L : List (List Char)) (a : List Char),
    ∃ pre, joinChars (L ++ [a]) = pre ++ a := by
  intro L a
  induction L with
  | nil => exact ⟨[], by simp [joinChars]⟩
  | cons p ps ih =>
    obtain ⟨pre, hpre⟩ := ih
    cases ps with
    | nil => exact ⟨p ++ [CATEGORY_PATH_SEP], by simp [joinChars]⟩
    | cons q qs =>
      refine ⟨p ++ CATEGORY_PATH_SEP :: pre, ?_⟩
      have hstep : joinChars ((p :: q :: qs) ++ [a])
          = p ++ CATEGORY_PATH_SEP :: joinChars ((q :: qs) ++ [a]) := rfl
      rw [hstep, hpre]
      simp

theorem dictInsert_of_get_none {α : Type} {l : List (String × α)} {k : String} {v : α}
    (h : pyGet k l = none) : dictInsert l k v = l ++ [(k, v)] := by
  simp [dictInsert, h]

theorem pnEq_none {c₁ c₂ : List (String × RawCat)} (h : pnEq c₁ c₂) (k : String) :
    pyGet k c₁ = none ↔ pyGet k c₂ = none := by
  have hp := (h k).1
  constructor
  · intro hn
    rw [hn] at hp
    exact Option.map_eq_none'.mp hp.symm
  · intro hn
    rw [hn] at hp
    exact Option.map_eq_none'.mp hp

/-! ### The build loop, characterized -/

theorem buildLoop_ok (cats0 : List (String × RawCat)) (f : Nat) :
    ∀ (todo : List String) (cats : List (String × RawCat)) (res : List (String × Category)),
      pnEq cats cats0 →
      cats.map Prod.fst = cats0.map Prod.fst →
      (∀ k ∈ todo, pyGet k cats = pyGet k cats0) →
      todo.Nodup →
      (∀ k ∈ todo, pyGet k res = none) →
      (∀ k ∈ todo, ∃ x, pyGet k cats0 = some x ∧ (chainNames f cats0 x.parent_id).isSome) →
      ∃ st res', buildLoop f todo cats res = some (st, res') ∧
        pnEq st cats0 ∧
        st.map Prod.fst = cats0.map Prod.fst ∧
        (∀ k, k ∉ todo → pyGet k st = pyGet k cats) ∧
        (∀ k x ns, k ∈ todo → pyGet k cats0 = some x →
          chainNames f cats0 x.parent_id = some ns →
          pyGet k st = some { x with path := ns ++ x.path }) ∧
        (∀ k, k ∉ todo → pyGet k res' = pyGet k res) ∧
        (∀ k x ns, k ∈ todo → pyGet k cats0 = some x →
          chainNames f cats0 x.parent_id = some ns →
          pyGet k res' = some ⟨k, x.parent_id, x.name, pyJoinSlash (ns ++ x.path)⟩) ∧
        res'.map Prod.fst = res.map Prod.fst ++ todo := by
  intro todo
  induction todo with
  | nil =>
    intro cats res hpn hkeys horig hnd hres hterm
    refine ⟨cats, res, rfl, hpn, hkeys, fun k _ => rfl, ?_, fun k _ => rfl, ?_, by simp⟩
    · intro k x ns hk
      simp at hk
    · intro k x ns hk
      simp at hk
  | cons id rest ih =>
    intro cats res hpn hkeys horig hnd hres hterm
    obtain ⟨x, hx0, hterm_id⟩ := hterm id (List.mem_cons_self id rest)
    have hx : pyGet id cats = some x := by
      rw [horig id (List.mem_cons_self id rest), hx0]
    obtain ⟨ns, hns⟩ := Option.isSome_iff_exists.mp hterm_id
    have hchain : chainNames f cats x.parent_id = some ns := by
      rw [chainNames_congr hpn f x.parent_id, hns]
    have hwalk : walkLoop id f cats x.parent_id = some (prependList cats id ns) := by
      rw [walkLoop_eq id f cats x.parent_id, hchain]
      rfl
    have hx' : pyGet id (prependList cats id ns) = some { x with path := ns ++ x.path } := by
      rw [pyGet_prependList id, if_pos rfl, hx]
      rfl
    have hid_rest : id ∉ rest := (List.nodup_cons.mp hnd).1
    have hnd' : rest.Nodup := (List.nodup_cons.mp hnd).2
    have hstep : buildLoop f (id :: rest) cats res
        = buildLoop f rest (prependList cats id ns)
            (res ++ [(id, ⟨id, x.parent_id, x.name, pyJoinSlash (ns ++ x.path)⟩)]) := by
      simp only [buildLoop, hx, hwalk, hx']
      rw [dictInsert_of_get_none (hres id (List.mem_cons_self id rest))]
    have hpn' : pnEq (prependList cats id ns) cats0 := pnEq_trans pnEq_prependList hpn
    have hkeys' : (prependList cats id ns).map Prod.fst = cats0.map Prod.fst := by
      rw [keys_prependList, hkeys]
    have horig' : ∀ k ∈ rest, pyGet k (prependList cats id ns) = pyGet k cats0 := by
      intro k hk
      have hkid : k ≠ id := fun h => hid_rest (h ▸ hk)
      rw [pyGet_prependList k, if_neg hkid]
      exact horig k (List.mem_cons_of_mem id hk)
    have happ : ∀ k, k ≠ id → ∀ c : Category, pyGet k (res ++ [(id, c)]) = pyGet k res := by
      intro k hkid c
      cases hr : pyGet k res with
      | some v => exact pyGet_append_of_some hr
      | none =>
        rw [pyGet_append_of_none hr]
        simp [pyGet, hkid]
    have hres' : ∀ k ∈ rest,
        pyGet k (res ++ [(id, ⟨id, x.parent_id, x.name, pyJoinSlash (ns ++ x.path)⟩)]) = none := by
      intro k hk
      have hkid : k ≠ id := fun h => hid_rest (h ▸ hk)
      rw [happ k hkid]
      exact hres k (List.mem_cons_of_mem id hk)
    have hterm' : ∀ k ∈ rest,
        ∃ x, pyGet k cats0 = some x ∧ (chainNames f cats0 x.parent_id).isSome :=
      fun k hk => hterm k (List.mem_cons_of_mem id hk)
    obtain ⟨st, res', hrun, hpnst, hkeysst, hstfr, hstval, hresfr, hresval, hkeysr⟩ :=
      ih (prependList cats id ns)
        (res ++ [(id, ⟨id, x.parent_id, x.name, pyJoinSlash (ns ++ x.path)⟩)])
        hpn' hkeys' horig' hnd' hres' hterm'
    refine ⟨st, res', by rw [hstep]; exact hrun, hpnst, hkeysst, ?_, ?_, ?_, ?_, ?_⟩
    · intro k hk
      have hkid : k ≠ id := fun h => hk (h ▸ List.mem_cons_self id rest)
      have hkrest : k ∉ rest := fun h => hk (List.mem_cons_of_mem id h)
      rw [hstfr k hkrest, pyGet_prependList k, if_neg hkid]
    · intro k x₂ ns₂ hk hx₂ hns₂
      rcases List.mem_cons.mp hk with rfl | hkrest
      · have hxx : x₂ = x := by
          rw [hx0] at hx₂
          exact (Option.some.inj hx₂).symm
        subst hxx
        have hnss : ns₂ = ns := by
          rw [hns] at hns₂
          exact (Option.some.inj hns₂).symm
        subst hnss
        rw [hstfr k hid_rest]
        exact hx'
      · exact hstval k x₂ ns₂ hkrest hx₂ hns₂
    · intro k hk
      have hkid : k ≠ id := fun h => hk (h ▸ List.mem_cons_self id rest)
      have hkrest : k ∉ rest := fun h => hk (List.mem_cons_of_mem id h)
      rw [hresfr k hkrest, happ k hkid]
    · intro k x₂ ns₂ hk hx₂ hns₂
      rcases List.mem_cons.mp hk with rfl | hkrest
      · have hxx : x₂ = x := by
          rw [hx0] at hx₂
          exact (Option.some.inj hx₂).symm
        subst hxx
        have hnss : ns₂ = ns := by
          rw [hns] at hns₂
          exact (Option.some.inj hns₂).symm
        subst hnss
        rw [hresfr k hid_rest, pyGet_append_of_none (hres k (List.mem_cons_self k rest))]
        simp [pyGet]
      · exact hresval k x₂ ns₂ hkrest hx₂ hns₂
    · rw [hkeysr]
      simp

theorem buildLoop_none (cats0 : List (String × RawCat)) (f : Nat) :
    ∀ (todo : List String) (cats : List (String × RawCat)) (res : List (String × Category)),
      pnEq cats cats0 →
      (∀ k ∈ todo, pyGet k cats = pyGet k cats0) →
      todo.Nodup →
      (∀ k ∈ todo, pyGet k res = none) →
      (∀ k ∈ todo, (pyGet k cats0).isSome) →
      (∃ k ∈ todo, ∃ x, pyGet k cats0 = some x ∧ chainNames f cats0 x.parent_id = none) →
      buildLoop f todo cats res = none := by
  intro todo
  induction todo with
  | nil =>
    intro cats res _ _ _ _ _ hfail
    obtain ⟨k, hk, _⟩ := hfail
    simp at hk
  | cons id rest ih =>
    intro cats res hpn horig hnd hres hsome hfail
    obtain ⟨x, hx0⟩ := Option.isSome_iff_exists.mp (hsome id (List.mem_cons_self id rest))
    have hx : pyGet id cats = some x := by
      rw [horig id (List.mem_cons_self id rest), hx0]
    cases hch : chainNames f cats0 x.parent_id with
    | none =>
      have hchain : chainNames f cats x.parent_id = none := by
        rw [chainNames_congr hpn f x.parent_id, hch]
      have hwalk : walkLoop id f cats x.parent_id = none := by
        rw [walkLoop_eq id f cats x.parent_id, hchain]
        rfl
      simp [buildLoop, hx, hwalk]
    | some ns =>
      have hwalk : walkLoop id f cats x.parent_id = some (prependList cats id ns) := by
        rw [walkLoop_eq id f cats x.parent_id, chainNames_congr hpn f x.parent_id, hch]
        rfl
      have hx' : pyGet id (prependList cats id ns) = some { x with path := ns ++ x.path } := by
        rw [pyGet_prependList id, if_pos rfl, hx]
        rfl
      have hid_rest : id ∉ rest := (List.nodup_cons.mp hnd).1
      have hstep : buildLoop f (id :: rest) cats res
          = buildLoop f rest (prependList cats id ns)
              (res ++ [(id, ⟨id, x.parent_id, x.name, pyJoinSlash (ns ++ x.path)⟩)]) := by
        simp only [buildLoop, hx, hwalk, hx']
        rw [dictInsert_of_get_none (hres id (List.mem_cons_self id rest))]
      rw [hstep]
      obtain ⟨k, hk, x₂, hx₂, hns₂⟩ := hfail
      rcases List.mem_cons.mp hk with rfl | hkrest
      · rw [hx0] at hx₂
        obtain rfl : x = x₂ := Option.some.inj hx₂
        rw [hch] at hns₂
        exact absurd hns₂ (by simp)
      · refine ih (prependList cats id ns)
          (res ++ [(id, ⟨id, x.parent_id, x.name, pyJoinSlash (ns ++ x.path)⟩)])
          (pnEq_trans pnEq_prependList hpn) ?_ (List.nodup_cons.mp hnd).2 ?_ ?_
          ⟨k, hkrest, x₂, hx₂, hns₂⟩
        · intro k' hk'
          have hkid : k' ≠ id := fun h => hid_rest (h ▸ hk')
          rw [pyGet_prependList k', if_neg hkid]
          exact horig k' (List.mem_cons_of_mem id hk')
        · intro k' hk'
          have hkid : k' ≠ id := fun h => hid_rest (h ▸ hk')
          have hr := hres k' (List.mem_cons_of_mem id hk')
          cases hrr : pyGet k' res with
          | some v => rw [hrr] at hr; exact absurd hr (by simp)
          | none =>
            rw [pyGet_append_of_none hrr]
            simp [pyGet, hkid]
        · exact fun k' hk' => hsome k' (List.mem_cons_of_mem id hk')

/-- The successful-build characterization: with distinct keys and every parent
chain exiting the map within `categories.length` lookups, `build_category_tree`
succeeds; the result has exactly the input's keys, each resolved path is the
chain's names followed by the entry's original `path` field, joined with `/`,
and the final state of the input dictionary has those same name sequences
written into its `path` fields. -/
theorem build_spec (cats : List (String × RawCat))
    (hnd : (cats.map Prod.fst).Nodup)
    (hacyc : ∀ p ∈ cats, (chainNames cats.length cats p.2.parent_id).isSome) :
    ∃ st res, build_category_tree_full cats = some (st, res) ∧
      build_category_tree cats = some res ∧
      res.map Prod.fst = cats.map Prod.fst ∧
      st.map Prod.fst = cats.map Prod.fst ∧
      pnEq st cats ∧
      (∀ k x ns, pyGet k cats = some x →
        chainNames cats.length cats x.parent_id = some ns →
        pyGet k st = some { x with path := ns ++ x.path } ∧
        pyGet k res = some ⟨k, x.parent_id, x.name, pyJoinSlash (ns ++ x.path)⟩) ∧
      (∀ k, pyGet k cats = none → pyGet k st = none ∧ pyGet k res = none) := by
  have hterm : ∀ k ∈ cats.map Prod.fst,
      ∃ x, pyGet k cats = some x ∧ (chainNames cats.length cats x.parent_id).isSome := by
    intro k hk
    obtain ⟨x, hx⟩ := exists_pyGet_of_mem_keys hk
    exact ⟨x, hx, hacyc (k, x) (pyGet_mem hx)⟩
  obtain ⟨st, res, hrun, hpnst, hkeysst, hstfr, hstval, hresfr, hresval, hkeysr⟩ :=
    buildLoop_ok cats cats.length (cats.map Prod.fst) cats []
      (pnEq_refl cats) rfl (fun _ _ => rfl) hnd (fun _ _ => rfl) hterm
  refine ⟨st, res, hrun, ?_, by simpa using hkeysr, hkeysst, hpnst, ?_, ?_⟩
  · rw [build_category_tree, build_category_tree_full, hrun]
    rfl
  · intro k x ns hx hns
    have hk : k ∈ cats.map Prod.fst := by
      exact List.mem_map_of_mem Prod.fst (pyGet_mem hx)
    exact ⟨hstval k x ns hk hx hns, hresval k x ns hk hx hns⟩
  · intro k hk
    have hkk : k ∉ cats.map Prod.fst := pyGet_eq_none.mp hk
    constructor
    · rw [hstfr k hkk]
      exact hk
    · rw [hresfr k hkk]
      rfl

/-- The failing-build characterization: with distinct keys, if some entry's
parent chain does not exit the map within `categories.length` lookups, the
build loop runs out of any iteration bound. -/
theorem build_fails (cats : List (String × RawCat))
    (hnd : (cats.map Prod.fst).Nodup)
    (hfail : ∃ p ∈ cats, chainNames cats.length cats p.2.parent_id = none) :
    build_category_tree_full cats = none := by
  obtain ⟨p, hp, hchn⟩ := hfail
  have hsome : ∀ k ∈ cats.map Prod.fst, (pyGet k cats).isSome := by
    intro k hk
    obtain ⟨x, hx⟩ := exists_pyGet_of_mem_keys hk
    simp [hx]
  refine buildLoop_none cats cats.length (cats.map Prod.fst) cats []
    (pnEq_refl cats) (fun _ _ => rfl) hnd (fun _ _ => rfl) hsome
    ⟨p.1, List.mem_map_of_mem Prod.fst hp, p.2, pyGet_of_nodup_mem hnd hp, hchn⟩

/-! ### Classifier support lemmas -/

theorem strEq_of_data : ∀ {s t : String}, s.data = t.data → s = t := by
  intro s t h
  cases s
  cases t
  exact congrArg String.mk h

theorem pyGetItem_nonneg {α : Type} (l : List α) (i : Int) (h0 : 0 ≤ i) :
    pyGetItem l i = l.get? i.toNat := by
  simp only [pyGetItem]
  have hneg : ¬ i < 0 := by omega
  rw [if_neg hneg]
  split_ifs with h1
  · rfl
  · symm
    exact List.get?_eq_none.mpr (by omega)

theorem pyGetItem_neg_one {α : Type} (l : List α) (h : l ≠ []) :
    pyGetItem l (-1) = l.get? (l.length - 1) := by
  have hlen : 0 < l.length := List.length_pos.mpr h
  simp only [pyGetItem]
  have hneg : (-1 : Int) < 0 := by norm_num
  rw [if_pos hneg]
  have hcond : (0 : Int) ≤ -1 + l.length ∧ (-1 + (l.length : Int)) < l.length := by
    constructor <;> omega
  rw [if_pos hcond]
  congr 1
  omega

theorem pyJoinSlash_three (p0 p1 p2 : String) (rest : List String) :
    pyJoinSlash (p0 :: p1 :: p2 :: rest)
      = p0 ++ "/" ++ p1 ++ "/" ++ p2 ++
        (if rest = [] then "" else "/" ++ pyJoinSlash rest) := by
  apply strEq_of_data
  have hsl : ("/" : String).data = ['/'] := rfl
  have hem : ("" : String).data = [] := rfl
  cases rest with
  | nil =>
    simp only [if_pos rfl]
    simp [pyJoinSlash, joinChars, strData_append, hsl, hem, CATEGORY_PATH_SEP,
      List.append_assoc]
  | cons r rs =>
    simp only [if_neg (List.cons_ne_nil r rs)]
    simp [pyJoinSlash, joinChars, strData_append, hsl, hem, CATEGORY_PATH_SEP,
      List.append_assoc]

theorem pyJoinSlash_concat (ns : List String) (n : String) :
    ∃ pre, (pyJoinSlash (ns ++ [n])).data = pre ++ n.data := by
  obtain ⟨pre, hpre⟩ := joinChars_concat (ns.map String.data) n.data
  refine ⟨pre, ?_⟩
  show joinChars ((ns ++ [n]).map String.data) = pre ++ n.data
  rw [List.map_append]
  exact hpre

theorem chainNames_cyc : ∀ fuel : Nat,
    chainNames fuel cyc "A" = none ∧ chainNames fuel cyc "B" = none := by
  intro fuel
  induction fuel with
  | zero => constructor <;> rfl
  | succ f ih =>
    have hA : pyGet "A" cyc = some ⟨"B", "a", ["a"]⟩ := rfl
    have hB : pyGet "B" cyc = some ⟨"A", "b", ["b"]⟩ := rfl
    constructor
    · simp [chainNames, hA, ih.2]
    · simp [chainNames, hB, ih.1]

/-! ### Claims -/

/-- C1: for every input dictionary (distinct keys, `path` fields seeded with
the category's own name as `get_raw_categories` produces them) whose parent
chains all exit the map within `categories.length` lookups, `build_category_tree`
returns a mapping with exactly the input's keys, and each id's resolved `path`
is the `/`-joined sequence of names along its ancestor chain - the chain's
names root-first, followed by the category's own name. -/
theorem buildCategoryTreePaths (cats : List (String × RawCat))
    (hnd : (cats.map Prod.fst).Nodup)
    (hpaths : ∀ p ∈ cats, p.2.path = [p.2.name])
    (hacyc : ∀ p ∈ cats, (chainNames cats.length cats p.2.parent_id).isSome) :
    ∃ res, build_category_tree cats = some res ∧
      res.map Prod.fst = cats.map Prod.fst ∧
      ∀ k x ns, pyGet k cats = some x →
        chainNames cats.length cats x.parent_id = some ns →
        pyGet k res = some ⟨k, x.parent_id, x.name, pyJoinSlash (ns ++ [x.name])⟩ := by
  obtain ⟨st, res, hfull, hbuild, hkeys, _, _, hval, _⟩ := build_spec cats hnd hacyc
  refine ⟨res, hbuild, hkeys, ?_⟩
  intro k x ns hx hns
  have hp : x.path = [x.name] := hpaths (k, x) (pyGet_mem hx)
  have h2 := (hval k x ns hx hns).2
  rw [hp] at h2
  exact h2

/-- C1 witness: the spec's `Kids/Girls/Dolls` scenario satisfies the
hypotheses, and the theorem applies to it. -/
theorem buildCategoryTreePaths_witness :
    ((exK.map Prod.fst).Nodup ∧ (∀ p ∈ exK, p.2.path = [p.2.name]) ∧
      (∀ p ∈ exK, (chainNames exK.length exK p.2.parent_id).isSome)) ∧
    (∃ res, build_category_tree exK = some res ∧
      res.map Prod.fst = exK.map Prod.fst ∧
      ∀ k x ns, pyGet k exK = some x →
        chainNames exK.length exK x.parent_id = some ns →
        pyGet k res = some ⟨k, x.parent_id, x.name, pyJoinSlash (ns ++ [x.name])⟩) :=
  ⟨⟨by decide, by decide, by decide⟩,
    buildCategoryTreePaths exK (by decide) (by decide) (by decide)⟩

/-- C2: on the cyclic input (`"A"`'s parent is `"B"`, `"B"`'s parent is
`"A"`), the build loop fails to complete under every iteration bound - the
`while` walk of main.py lines 119-121 never exits, so `build_category_tree`
loops forever instead of signalling a `CycleDetected` condition. -/
theorem buildCycleDiverges :
    (∀ fuel, buildLoop fuel (cyc.map Prod.fst) cyc [] = none) ∧
    build_category_tree cyc = none := by
  have hmain : ∀ fuel, buildLoop fuel (cyc.map Prod.fst) cyc [] = none := by
    intro fuel
    have hA : pyGet "A" cyc = some ⟨"B", "a", ["a"]⟩ := rfl
    have hwalk : walkLoop "A" fuel cyc "B" = none := by
      rw [walkLoop_eq "A" fuel cyc "B", (chainNames_cyc fuel).2]
      rfl
    have hkeys : cyc.map Prod.fst = ["A", "B"] := rfl
    rw [hkeys]
    simp [buildLoop, hA, hwalk]
  refine ⟨hmain, ?_⟩
  show (buildLoop cyc.length (cyc.map Prod.fst) cyc []).map Prod.snd = none
  rw [hmain cyc.length]
  rfl

/-- C3: contrary to the spec's saturate-to-empty requirement, `level = -1` on
a category whose path has fewer than three segments raises `IndexError`
(`pop` from an empty list, main.py lines 205-207); only at exactly three
segments does it return the empty string. -/
theorem classifyShallowRemainderRaises :
    get_offer_n_level_category "1" (-1) tree1 = Except.error PyError.indexError ∧
    get_offer_n_level_category "2" (-1) tree2 = Except.error PyError.indexError ∧
    get_offer_n_level_category "3" (-1) tree3 = Except.ok "" :=
  ⟨rfl, rfl, rfl⟩

/-- C4 counterexample: `build_category_tree` changes its input - after
building `exA`, entry `"2"`'s `path` field holds `["Kids", "Girls"]` instead
of the original `["Girls"]`. -/
theorem buildMutatesInput :
    (build_category_tree_full exA).map Prod.fst = some exAafter ∧ exAafter ≠ exA :=
  ⟨rfl, by decide⟩

/-- C4 amended: what the call actually does to the input dictionary - keys,
`parent_id`s and `name`s are untouched, but every entry's `path` field is
overwritten with its ancestors' names prepended. -/
theorem buildMutationCharacterized (cats : List (String × RawCat))
    (hnd : (cats.map Prod.fst).Nodup)
    (hacyc : ∀ p ∈ cats, (chainNames cats.length cats p.2.parent_id).isSome) :
    ∃ st res, build_category_tree_full cats = some (st, res) ∧
      st.map Prod.fst = cats.map Prod.fst ∧
      pnEq st cats ∧
      (∀ k x ns, pyGet k cats = some x →
        chainNames cats.length cats x.parent_id = some ns →
        pyGet k st = some { x with path := ns ++ x.path }) ∧
      (∀ k, pyGet k cats = none → pyGet k st = none) := by
  obtain ⟨st, res, hfull, _, _, hkeysst, hpn, hval, hnone⟩ := build_spec cats hnd hacyc
  exact ⟨st, res, hfull, hkeysst, hpn, fun k x ns hx hns => (hval k x ns hx hns).1,
    fun k hk => (hnone k hk).1⟩

/-- C4 amended witness: the theorem applied to `exA`. -/
theorem buildMutationCharacterized_witness :
    ((exA.map Prod.fst).Nodup ∧
      (∀ p ∈ exA, (chainNames exA.length exA p.2.parent_id).isSome)) ∧
    (∃ st res, build_category_tree_full exA = some (st, res) ∧
      st.map Prod.fst = exA.map Prod.fst ∧
      pnEq st exA ∧
      (∀ k x ns, pyGet k exA = some x →
        chainNames exA.length exA x.parent_id = some ns →
        pyGet k st = some { x with path := ns ++ x.path }) ∧
      (∀ k, pyGet k exA = none → pyGet k st = none)) :=
  ⟨⟨by decide, by decide⟩, buildMutationCharacterized exA (by decide) (by decide)⟩

/-- C5 counterexample: running `build_category_tree` twice in sequence on the
same dictionary gives different results - the first call leaves `exA` in
state `exAafter`, and building that state resolves `"2"` to
`"Kids/Kids/Girls"` instead of `"Kids/Girls"`. -/
theorem buildTwiceDiffers :
    build_category_tree_full exA = some (exAafter,
      [("1", ⟨"1", "", "Kids", "Kids"⟩), ("2", ⟨"2", "1", "Girls", "Kids/Girls"⟩)]) ∧
    build_category_tree exAafter = some
      [("1", ⟨"1", "", "Kids", "Kids"⟩), ("2", ⟨"2", "1", "Girls", "Kids/Kids/Girls"⟩)] ∧
    ([("1", (⟨"1", "", "Kids", "Kids"⟩ : Category)),
      ("2", ⟨"2", "1", "Girls", "Kids/Kids/Girls"⟩)]
      ≠ [("1", ⟨"1", "", "Kids", "Kids"⟩), ("2", ⟨"2", "1", "Girls", "Kids/Girls"⟩)]) :=
  ⟨rfl, rfl, by decide⟩

/-- C5 amended: insertion-order independence holds - permuted inputs with
the same key-value associations produce results that are equal as mappings
(and both diverge together on bad chains). -/
theorem buildOrderIndependent (c₁ c₂ : List (String × RawCat))
    (hperm : c₁.Perm c₂) (hnd : (c₁.map Prod.fst).Nodup) :
    (build_category_tree c₁ = none ∧ build_category_tree c₂ = none) ∨
    (∃ r₁ r₂, build_category_tree c₁ = some r₁ ∧ build_category_tree c₂ = some r₂ ∧
      ∀ k, pyGet k r₁ = pyGet k r₂) := by
  have hnd₂ : (c₂.map Prod.fst).Nodup := ((hperm.map Prod.fst).nodup_iff).mp hnd
  have hget : ∀ k, pyGet k c₁ = pyGet k c₂ := pyGet_perm hperm hnd
  have hlen : c₁.length = c₂.length := hperm.length_eq
  have hch : ∀ f pid, chainNames f c₁ pid = chainNames f c₂ pid :=
    fun f pid => chainNames_congr (pnEq_of_get_eq hget) f pid
  by_cases hterm : ∀ p ∈ c₁, (chainNames c₁.length c₁ p.2.parent_id).isSome
  · right
    have hterm₂ : ∀ p ∈ c₂, (chainNames c₂.length c₂ p.2.parent_id).isSome := by
      intro p hp
      rw [← hch, ← hlen]
      exact hterm p (hperm.mem_iff.mpr hp)
    obtain ⟨st₁, r₁, _, hb₁, _, _, _, hval₁, hnone₁⟩ := build_spec c₁ hnd hterm
    obtain ⟨st₂, r₂, _, hb₂, _, _, _, hval₂, hnone₂⟩ := build_spec c₂ hnd₂ hterm₂
    refine ⟨r₁, r₂, hb₁, hb₂, ?_⟩
    intro k
    cases hx : pyGet k c₁ with
    | none =>
      rw [(hnone₁ k hx).2, (hnone₂ k (by rw [← hget k]; exact hx)).2]
    | some x =>
      obtain ⟨ns, hns⟩ := Option.isSome_iff_exists.mp (hterm (k, x) (pyGet_mem hx))
      have h₁ := (hval₁ k x ns hx hns).2
      have h₂ := (hval₂ k x ns (by rw [← hget k]; exact hx)
        (by rw [← hch, ← hlen]; exact hns)).2
      rw [h₁, h₂]
  · left
    rw [not_forall] at hterm
    obtain ⟨p, hp⟩ := hterm
    have hpmem : p ∈ c₁ := by
      by_contra hc
      exact hp (fun hmem => absurd hmem hc)
    have hnotsome : ¬ (chainNames c₁.length c₁ p.2.parent_id).isSome := fun hs =>
      hp (fun _ => hs)
    have hn₁ : chainNames c₁.length c₁ p.2.parent_id = none := by
      cases hcc : chainNames c₁.length c₁ p.2.parent_id with
      | some ns => rw [hcc] at hnotsome; simp at hnotsome
      | none => rfl
    have hn₂ : chainNames c₂.length c₂ p.2.parent_id = none := by
      rw [← hch, ← hlen]
      exact hn₁
    constructor
    · show (build_category_tree_full c₁).map Prod.snd = none
      rw [build_fails c₁ hnd ⟨p, hpmem, hn₁⟩]
      rfl
    · show (build_category_tree_full c₂).map Prod.snd = none
      rw [build_fails c₂ hnd₂ ⟨p, hperm.mem_iff.mp hpmem, hn₂⟩]
      rfl

/-- C5 amended witness: `exK` and its reordering `exKperm` build to the same
mapping. -/
theorem buildOrderIndependent_witness :
    (exK.Perm exKperm ∧ (exK.map Prod.fst).Nodup) ∧
    ((build_category_tree exK = none ∧ build_category_tree exKperm = none) ∨
      (∃ r₁ r₂, build_category_tree exK = some r₁ ∧
        build_category_tree exKperm = some r₂ ∧ ∀ k, pyGet k r₁ = pyGet k r₂)) :=
  ⟨⟨by decide, by decide⟩, buildOrderIndependent exK exKperm (by decide) (by decide)⟩

/-- C6: an id absent from the tree makes `get_offer_n_level_category` fail
with the `UnknownCategory` condition (the lookup-miss failure, distinct from
the index failure), for every level, instead of returning a value. -/
theorem classifyUnknownCategory (tree : List (String × Category)) (id : String)
    (level : Int) (h : pyGet id tree = none) :
    get_offer_n_level_category id level tree = Except.error UnknownCategory := by
  simp [get_offer_n_level_category, h, UnknownCategory]

/-- C6 witness: id `"9"` is absent from `tree1`. -/
theorem classifyUnknownCategory_witness :
    pyGet "9" tree1 = (none : Option Category) ∧
    get_offer_n_level_category "9" 1 tree1 = Except.error UnknownCategory :=
  ⟨by decide, classifyUnknownCategory tree1 "9" 1 (by decide)⟩

/-- C7: a positive level strictly greater than the number of `/`-separated
segments of the category's path makes `get_offer_n_level_category` fail with
`IndexOutOfRange`; it never returns a fabricated value for such a rank. -/
theorem classifyIndexOutOfRange (tree : List (String × Category)) (id : String)
    (cat : Category) (level : Int) (h : pyGet id tree = some cat)
    (h1 : 1 ≤ level) (h2 : ((pySplit cat.path).length : Int) < level) :
    get_offer_n_level_category id level tree = Except.error IndexOutOfRange := by
  have hm1 : ¬ level = -1 := by omega
  have hitem : pyGetItem (pySplit cat.path) (level - 1) = none := by
    rw [pyGetItem_nonneg _ _ (by omega)]
    exact List.get?_eq_none.mpr (by omega)
  simp [get_offer_n_level_category, h, hm1, hitem, IndexOutOfRange]

/-- C7 witness: level 2 on the one-segment path `"Kids"`. -/
theorem classifyIndexOutOfRange_witness :
    (pyGet "1" tree1 = some ⟨"1", "", "Kids", "Kids"⟩ ∧ (1 : Int) ≤ 2 ∧
      ((pySplit (Category.mk "1" "" "Kids" "Kids").path).length : Int) < 2) ∧
    get_offer_n_level_category "1" 2 tree1 = Except.error IndexOutOfRange :=
  ⟨⟨by decide, by decide, by decide⟩,
    classifyIndexOutOfRange tree1 "1" ⟨"1", "", "Kids", "Kids"⟩ 2
      (by decide) (by decide) (by decide)⟩

/-- C8 counterexample: in the acyclic input `exE` the empty string is itself
a category id, so the entry `"a"` with `parent_id = ""` is not treated as a
root - its resolved path is `"Root/Leaf"`, not its own name `"Leaf"`. -/
theorem buildEmptyIdNotRoot :
    (exE.map Prod.fst).Nodup ∧
    (∀ p ∈ exE, p.2.path = [p.2.name]) ∧
    (∀ p ∈ exE, (chainNames exE.length exE p.2.parent_id).isSome) ∧
    pyGet "a" exE = some ⟨"", "Leaf", ["Leaf"]⟩ ∧
    build_category_tree exE = some
      [("", ⟨"", "x", "Root", "Root"⟩), ("a", ⟨"a", "", "Leaf", "Root/Leaf"⟩)] ∧
    ("Root/Leaf" : String) ≠ "Leaf" :=
  ⟨by decide, by decide, by decide, rfl, rfl, by decide⟩

/-- C8 amended: in an acyclic input, a category whose `parent_id` is not a
key of the input (which covers an empty `parent_id` whenever no category's id
is the empty string) resolves to a path equal to its own name, and every
category's resolved path ends with its own name. -/
theorem buildRootAndSuffix (cats : List (String × RawCat))
    (hnd : (cats.map Prod.fst).Nodup)
    (hpaths : ∀ p ∈ cats, p.2.path = [p.2.name])
    (hacyc : ∀ p ∈ cats, (chainNames cats.length cats p.2.parent_id).isSome) :
    ∃ res, build_category_tree cats = some res ∧
      (∀ k x, pyGet k cats = some x → x.parent_id ∉ cats.map Prod.fst →
        pyGet k res = some ⟨k, x.parent_id, x.name, x.name⟩) ∧
      (∀ k x, pyGet k cats = some x →
        ∃ cat pre, pyGet k res = some cat ∧ cat.path.data = pre ++ x.name.data) := by
  obtain ⟨st, res, hfull, hbuild, _, _, _, hval, _⟩ := build_spec cats hnd hacyc
  refine ⟨res, hbuild, ?_, ?_⟩
  · intro k x hx hproot
    have hnone : pyGet x.parent_id cats = none := pyGet_eq_none.mpr hproot
    have hchn : chainNames cats.length cats x.parent_id = some [] := by
      cases hl : cats.length with
      | zero => simp [chainNames, hnone]
      | succ n => simp [chainNames, hnone]
    have h2 := (hval k x [] hx hchn).2
    rw [hpaths (k, x) (pyGet_mem hx)] at h2
    simpa [pyJoinSlash_singleton] using h2
  · intro k x hx
    obtain ⟨ns, hns⟩ := Option.isSome_iff_exists.mp (hacyc (k, x) (pyGet_mem hx))
    have h2 := (hval k x ns hx hns).2
    rw [hpaths (k, x) (pyGet_mem hx)] at h2
    obtain ⟨pre, hpre⟩ := pyJoinSlash_concat ns x.name
    exact ⟨_, pre, h2, hpre⟩

/-- C8 amended witness: the theorem applied to `exK`. -/
theorem buildRootAndSuffix_witness :
    ((exK.map Prod.fst).Nodup ∧ (∀ p ∈ exK, p.2.path = [p.2.name]) ∧
      (∀ p ∈ exK, (chainNames exK.length exK p.2.parent_id).isSome)) ∧
    (∃ res, build_category_tree exK = some res ∧
      (∀ k x, pyGet k exK = some x → x.parent_id ∉ exK.map Prod.fst →
        pyGet k res = some ⟨k, x.parent_id, x.name, x.name⟩) ∧
      (∀ k x, pyGet k exK = some x →
        ∃ cat pre, pyGet k res = some cat ∧ cat.path.data = pre ++ x.name.data)) :=
  ⟨⟨by decide, by decide, by decide⟩,
    buildRootAndSuffix exK (by decide) (by decide) (by decide)⟩

/-- C9: for a category whose path has at least three segments, the level-1,
level-2 and level-3 results joined with `/`, plus the `level = -1` remainder
(preceded by `/` exactly when a fourth segment exists), reconstruct the full
path. -/
theorem classifyRoundTrip (tree : List (String × Category)) (id : String)
    (cat : Category) (h : pyGet id tree = some cat)
    (h3 : 3 ≤ (pySplit cat.path).length) :
    ∃ l1 l2 l3 rem,
      get_offer_n_level_category id 1 tree = Except.ok l1 ∧
      get_offer_n_level_category id 2 tree = Except.ok l2 ∧
      get_offer_n_level_category id 3 tree = Except.ok l3 ∧
      get_offer_n_level_category id (-1) tree = Except.ok rem ∧
      l1 ++ "/" ++ l2 ++ "/" ++ l3 ++
        (if (pySplit cat.path).length ≤ 3 then "" else "/" ++ rem) = cat.path := by
  obtain ⟨p0, p1, p2, rest, hps⟩ :
      ∃ p0 p1 p2 rest, pySplit cat.path = p0 :: p1 :: p2 :: rest := by
    cases hq : pySplit cat.path with
    | nil => rw [hq] at h3; simp at h3
    | cons a t1 =>
      cases t1 with
      | nil => rw [hq] at h3; simp at h3
      | cons b t2 =>
        cases t2 with
        | nil => rw [hq] at h3; simp at h3
        | cons c t3 => exact ⟨a, b, c, t3, rfl⟩
  have hl1 : get_offer_n_level_category id 1 tree = Except.ok p0 := by
    have hitem : pyGetItem (pySplit cat.path) 0 = some p0 := by
      rw [pyGetItem_nonneg _ _ le_rfl, hps]
      rfl
    simp [get_offer_n_level_category, h, hitem]
  have hl2 : get_offer_n_level_category id 2 tree = Except.ok p1 := by
    have hitem : pyGetItem (pySplit cat.path) 1 = some p1 := by
      rw [pyGetItem_nonneg _ _ (by norm_num), hps]
      rfl
    simp [get_offer_n_level_category, h, hitem]
  have hl3 : get_offer_n_level_category id 3 tree = Except.ok p2 := by
    have hitem : pyGetItem (pySplit cat.path) 2 = some p2 := by
      rw [pyGetItem_nonneg _ _ (by norm_num), hps]
      rfl
    simp [get_offer_n_level_category, h, hitem]
  have hrem : get_offer_n_level_category id (-1) tree = Except.ok (pyJoinSlash rest) := by
    simp [get_offer_n_level_category, h, hps, pyPopFront]
  refine ⟨p0, p1, p2, pyJoinSlash rest, hl1, hl2, hl3, hrem, ?_⟩
  conv_rhs => rw [← pyJoinSlash_pySplit cat.path]
  rw [hps, pyJoinSlash_three]
  cases rest with
  | nil =>
    have hc : (p0 :: p1 :: p2 :: ([] : List String)).length ≤ 3 := by simp
    rw [if_pos hc, if_pos rfl]
  | cons r rs =>
    have hc : ¬ (p0 :: p1 :: p2 :: r :: rs).length ≤ 3 := by
      simp only [List.length_cons]
      omega
    rw [if_neg hc, if_neg (List.cons_ne_nil r rs)]

/-- C9 witness: the spec's five-deep chain at its leaf. -/
theorem classifyRoundTrip_witness :
    (pyGet "5" tree5
        = some ⟨"5", "4", "Shoes", "Kids/Girls/Dolls/Accessories/Shoes"⟩ ∧
      3 ≤ (pySplit (Category.mk "5" "4" "Shoes"
        "Kids/Girls/Dolls/Accessories/Shoes").path).length) ∧
    (∃ l1 l2 l3 rem,
      get_offer_n_level_category "5" 1 tree5 = Except.ok l1 ∧
      get_offer_n_level_category "5" 2 tree5 = Except.ok l2 ∧
      get_offer_n_level_category "5" 3 tree5 = Except.ok l3 ∧
      get_offer_n_level_category "5" (-1) tree5 = Except.ok rem ∧
      l1 ++ "/" ++ l2 ++ "/" ++ l3 ++
        (if (pySplit (Category.mk "5" "4" "Shoes"
          "Kids/Girls/Dolls/Accessories/Shoes").path).length ≤ 3
         then "" else "/" ++ rem)
        = (Category.mk "5" "4" "Shoes" "Kids/Girls/Dolls/Accessories/Shoes").path) :=
  ⟨⟨by decide, by decide⟩,
    classifyRoundTrip tree5 "5" ⟨"5", "4", "Shoes", "Kids/Girls/Dolls/Accessories/Shoes"⟩
      (by decide) (by decide)⟩

/-- C10: `level = 0`, outside the documented domain, does not fail - Python's
negative indexing turns `path[0 - 1]` into the last element, so the call
returns the last segment of the category's path. -/
theorem classifyLevelZero (tree : List (String × Category)) (id : String)
    (cat : Category) (h : pyGet id tree = some cat) :
    ∃ s, get_offer_n_level_category id 0 tree = Except.ok s ∧
      (pySplit cat.path).getLast? = some s := by
  have hne : pySplit cat.path ≠ [] := pySplit_ne_nil _
  have hlen : 0 < (pySplit cat.path).length := List.length_pos.mpr hne
  have hitem : pyGetItem (pySplit cat.path) (-1)
      = (pySplit cat.path).get? ((pySplit cat.path).length - 1) :=
    pyGetItem_neg_one _ hne
  cases hq : (pySplit cat.path).get? ((pySplit cat.path).length - 1) with
  | none =>
    have := List.get?_eq_none.mp hq
    omega
  | some s =>
    refine ⟨s, ?_, ?_⟩
    · have hq' := hq
      rw [List.get?_eq_getElem?] at hq'
      simp [get_offer_n_level_category, h, hitem, hq']
    · rw [List.getLast?_eq_getElem?, ← List.get?_eq_getElem?]
      exact hq

/-- C10 witness: level 0 on the three-segment path returns `"Dolls"`. -/
theorem classifyLevelZero_witness :
    pyGet "3" tree3 = some ⟨"3", "2", "Dolls", "Kids/Girls/Dolls"⟩ ∧
    (∃ s, get_offer_n_level_category "3" 0 tree3 = Except.ok s ∧
      (pySplit (Category.mk "3" "2" "Dolls" "Kids/Girls/Dolls").path).getLast?
        = some s) :=
  ⟨by decide,
    classifyLevelZero tree3 "3" ⟨"3", "2", "Dolls", "Kids/Girls/Dolls"⟩ (by decide)⟩

end PythonTestTask
